import Mathlib

/-!
Shallow embedding of the Vote repository (election tallying under
First-Past-the-Post and Single Transferable Vote), translated from
`src/vote/voting_system.py`.  Python integers become `Int`, the pandas
count tables (one row per distinct ranking, with a vote count) become
association lists from ranking keys to counts kept in the sorted order
that `groupby` produces, and Python exceptions become `Except` errors.
-/

/-- Error values for `proportional_deduction_retain_int`: `invalidDeduction`
corresponds to the `ValueError`s raised by the validation checks (including
the `ValueError` that `min` raises on an empty sequence), `zeroDivision` to
the `ZeroDivisionError` of `1 - n / sum(X)` when `sum(X) == 0`, and
`roundingError` to `exc.RoundingError` from the final safety check. -/
inductive DeductError where
  | invalidDeduction
  | zeroDivision
  | roundingError
deriving DecidableEq

/-- The three admissible strategy names checked by
`proportional_deduction_retain_int` (`strategies` tuple in the source). -/
def strategies : List String := ["difference", "largest", "smallest"]

/-- Integer parts of the scaled values.  The Python code scales each count as
`x * (1 - n / sum(X))`, i.e. the exact rational `x * T / S` with
`T = sum(X) - n` and `S = sum(X)`; its integer part is the Euclidean
quotient `x * T / S` (Python `//` for a positive divisor). -/
def pdFloors (X : List ℤ) (T S : ℤ) : List ℤ :=
  X.map (fun x => x * T / S)

/-- Remainders of the scaled values: `x * T / S` has fractional part
`(x * T % S) / S`, so comparing fractional parts of values over the common
denominator `S` is comparing these integer remainders. -/
def pdRems (X : List ℤ) (T S : ℤ) : List ℤ :=
  X.map (fun x => x * T % S)

/-- Index/remainder pairs ordered by descending remainder (stable, so ties
keep their original relative order). -/
def lrOrder (rems : List ℤ) : List (ℕ × ℤ) :=
  rems.enum.insertionSort (fun a b => b.2 ≤ a.2)

/-- The `R` indices that receive one extra unit: those with the largest
fractional remainders. -/
def lrChosen (rems : List ℤ) (R : ℕ) : List ℕ :=
  ((lrOrder rems).map Prod.fst).take R

/-- Add `1` to the entries whose position (counted from `k`) is in `chosen`. -/
def addOnes : List ℤ → ℕ → List ℕ → List ℤ
  | [], _, _ => []
  | a :: tl, k, chosen =>
    (if k ∈ chosen then a + 1 else a) :: addOnes tl (k + 1) chosen

/-- Modelled from the spec: the external routine `iteround.saferound(values,
places=0)` belongs to the third-party `iteround` library, whose code is not
part of this repository.  Spec section 4.5 describes the integer rounding as
the largest-remainder method: each scaled value `x * T / S` is rounded and
the rounding remainder is resolved in favour of the rows with the largest
fractional remainders until the running sum matches the target `T` exactly.
That is what this function implements, in exact integer arithmetic over the
common denominator `S`: floor every scaled value, then hand the remaining
`T - sum of floors` units, one each, to the largest fractional parts. -/
def lrRound (X : List ℤ) (T S : ℤ) : List ℤ :=
  let fl := pdFloors X T S
  addOnes fl 0 (lrChosen (pdRems X T S) (T - fl.sum).toNat)

/-- Embedding of `proportional_deduction_retain_int(X, n, strategy)`
(src/vote/voting_system.py lines 409-454).  The validation checks appear in
source order: `n < 0`, then `min(X) < 0` (whose `min` raises `ValueError` on
an empty sequence, modelled by the empty-list branch), then the strategy
name check, then `sum(X) < n`.  The division `1 - n / sum(X)` raises
`ZeroDivisionError` when `sum(X) == 0`, modelled by the `zeroDivision`
branch.  The final branch is the defensive safety check raising
`RoundingError` when the rounded values do not sum to `sum(X) - n`. -/
def proportional_deduction_retain_int (X : List ℤ) (n : ℤ)
    (strategy : String) : Except DeductError (List ℤ) :=
  if n < 0 then .error .invalidDeduction
  else if X = [] then .error .invalidDeduction
  else if X.min?.getD 0 < 0 then .error .invalidDeduction
  else if strategy ∈ strategies then
    if X.sum < n then .error .invalidDeduction
    else if X.sum = 0 then .error .zeroDivision
    else if X.sum ≠ (lrRound X (X.sum - n) X.sum).sum + n then
      .error .roundingError
    else .ok (lrRound X (X.sum - n) X.sum)
  else .error .invalidDeduction

/-!
Count tables.  `Vote.aggregate` produces a pandas DataFrame with one row per
distinct ranking key and an `n_votes` count; `fillna(-1)` turns the NaN
padding into `-1` and `groupby(columns)` merges equal keys, summing counts,
and emits rows sorted ascending by key.  A table is the list of
(key, count) rows in that sorted order; `-1` is the NaN sentinel.
-/

abbrev Row : Type := List ℤ × ℤ

abbrev Table : Type := List Row

/-- Total of all row counts of a table. -/
def sumCounts (t : Table) : ℤ := (t.map Prod.snd).sum

/-- Summed count of the rows of `rows` whose key is `k` (the `groupby` sum
for one group). -/
def weightOf (rows : Table) (k : List ℤ) : ℤ :=
  ((rows.filter (fun r => r.1 == k)).map Prod.snd).sum

/-- `fillna(-1).groupby(columns, as_index=False).sum()`: one row per distinct
key, keys sorted ascending (lexicographically, with the `-1` sentinel below
every candidate id, as pandas sorts the `-1`-filled values), counts summed. -/
def regroup (rows : Table) : Table :=
  (((rows.map Prod.fst).dedup).insertionSort (fun a b => a ≤ b)).map
    (fun k => (k, weightOf rows k))

/-- Right-pad a ballot to the fixed key width `w` with the sentinel `-1`
(the `fillna(-1)` of the NaN padding that `pd.DataFrame(votes)` creates). -/
def padKey (w : ℕ) (b : List ℤ) : List ℤ :=
  b ++ List.replicate (w - b.length) (-1)

/-- `Vote.aggregate('all')`: every ballot becomes a width-`w` key with count
1, and equal keys are merged by `groupby`.  Domain note:
`pd.DataFrame(self.votes, columns=columns)` infers its data width as the
LONGEST ballot's length and raises `ValueError` whenever that width
differs from `len(self.candidates)`; this embedding models the successful
case only, so every theorem below that runs a whole tally does it on a
ballot set whose longest ballot has length exactly `w` (the candidate
count), where the real constructor succeeds and `fillna(-1)` pads the
shorter ballots exactly as `padKey` does. -/
def aggregate_all (w : ℕ) (ballots : List (List ℤ)) : Table :=
  regroup (ballots.map (fun b => (padKey w b, 1)))

/-- `Vote.aggregate('first')`: only the first choice is kept as the key.
The source builds the same full-width DataFrame first and then selects
the `choice` column, so the constructor precondition of `aggregate_all`
(longest ballot = candidate count) applies here too, and theorems that
evaluate a whole FPTP tally use such inputs.  Every validated ballot has
at least one choice, so the first column is never NaN and `headI` never
falls back to its default. -/
def aggregate_first (ballots : List (List ℤ)) : Table :=
  regroup (ballots.map (fun b => ([b.headI], 1)))

/-- The `choice` column of a row: its first ranking entry. -/
def firstChoice (r : Row) : ℤ := r.1.headI

/-- `df[df.choice == winner_id].n_votes`: the counts of the rows whose first
choice is `c`, in table order. -/
def winnerValues (t : Table) (c : ℤ) : List ℤ :=
  (t.filter (fun r => firstChoice r == c)).map Prod.snd

/-- Per-candidate first-choice total (`groupby('choice').n_votes.sum()` for
one candidate). -/
def totalFor (t : Table) (c : ℤ) : ℤ := (winnerValues t c).sum

/-- `df.groupby(['choice'], as_index=False).n_votes.sum()`: the distinct
first choices in ascending order, each with its summed count. -/
def choiceTotals (t : Table) : List (ℤ × ℤ) :=
  (((t.map firstChoice).dedup).insertionSort (fun a b => a ≤ b)).map
    (fun c => (c, totalFor t c))

/-- Embedding of the local function `calculate_winners(df, quota)`
(src/vote/voting_system.py lines 258-274): per-choice totals, sorted by
descending `n_votes` (stable, so equal totals stay in ascending choice
order), keeping every candidate whose total reaches the quota. -/
def calculate_winners (t : Table) (quota : ℤ) : List (ℤ × ℤ) :=
  ((choiceTotals t).insertionSort (fun a b => b.2 ≤ a.2)).filter
    (fun p => quota ≤ p.2)

/-- The `df.join(deducted_values)` / masked assignment of
`subtract_votes_from_winners`: rows whose first choice is `wid` receive, in
table order, the successive deducted values; all other rows are unchanged. -/
def replaceCounts : Table → ℤ → List ℤ → Table
  | [], _, _ => []
  | r :: tl, wid, ded =>
    if firstChoice r == wid then
      match ded with
      | [] => r :: replaceCounts tl wid []
      | d :: ds => (r.1, d) :: replaceCounts tl wid ds
    else r :: replaceCounts tl wid ded

/-- One pass of the `for winner_id in new_winners['choice']` loop body:
proportionally deduct the quota across the winner's rows. -/
def subtractOne (t : Table) (wid quota : ℤ) : Except DeductError Table :=
  match proportional_deduction_retain_int (winnerValues t wid) quota
      "difference" with
  | .error e => .error e
  | .ok ded => .ok (replaceCounts t wid ded)

/-- Embedding of the local function `subtract_votes_from_winners(df,
new_winners, quota)` (src/vote/voting_system.py lines 276-297): deduct the
quota across each new winner's rows, then delete rows whose votes are all
spent (`df = df[df.n_votes != 0]`). -/
def subtract_votes_from_winners (t : Table) (ws : List ℤ) (quota : ℤ) :
    Except DeductError Table := do
  let t' ← ws.foldlM (fun acc wid => subtractOne acc wid quota) t
  pure (t'.filter (fun r => r.2 != 0))

/-- The column-rename trick of `transfer_from_losers`: dropping the first
choice, shifting the later choices left and padding the vacated last column
with the sentinel. -/
def shiftKey (k : List ℤ) : List ℤ := k.tail ++ [-1]

/-- A key all of whose entries are the sentinel: a ballot with no remaining
preferences (`df[shift_cols].isnull().all(axis=1)`). -/
def allSentinel (k : List ℤ) : Bool := k.all (fun z => z == -1)

/-- The candidates tied at the minimum per-choice total
(`losers = df_agg[df_agg.n_votes == min_val]`). -/
def losersOf (t : Table) : List ℤ :=
  let totals := choiceTotals t
  ((totals.filter
      (fun p => p.2 == ((totals.map Prod.snd).min?.getD 0))).map Prod.fst)

/-- The rows after the shift step of `transfer_from_losers`: rows of
non-losing candidates unchanged (the `df.drop` keeps them), losers' rows
with their keys shifted left, concatenated in the source's
`pd.concat([df, df_losers])` order. -/
def transferRows (t : Table) : Table :=
  (t.filter (fun r => !((losersOf t).contains (firstChoice r))))
    ++ ((t.filter (fun r => (losersOf t).contains (firstChoice r))).map
        (fun r => (shiftKey r.1, r.2)))

/-- Embedding of the local function `transfer_from_losers(df, shift_cols)`
(src/vote/voting_system.py lines 299-340): shift the losers' rows to their
next preference, drop rows whose choices are all sentinel (ballots with no
further preference), and reaggregate. -/
def transfer_from_losers (t : Table) : Table :=
  regroup ((transferRows t).filter (fun r => !allSentinel r.1))

/-- The votes that `transfer_from_losers` drops: counts of rows that are
entirely sentinel after the shift (ballots that exhausted every
preference). -/
def exhaustedVotes (t : Table) : ℤ :=
  (((transferRows t).filter (fun r => allSentinel r.1)).map Prod.snd).sum

/-- Errors of `single_transferable_vote`: `insufficientVotes` is the
`ValueError` for too few votes; `deduct e` propagates an exception raised
inside `proportional_deduction_retain_int`; `outOfFuel` marks exhaustion of
the step budget of this embedding of the unbounded `while` loop (the Python
code would keep iterating). -/
inductive StvError where
  | insufficientVotes
  | deduct (e : DeductError)
  | outOfFuel
deriving DecidableEq

/-- One iteration body of the `while len(winners) < n_seats` loop: compute
this round's winners, then either subtract the quota from the new winners'
rows (surplus phase `i == 0`, a no-op when there are no new winners) or
transfer the minimum-total candidates' votes (elimination phase `i == 1`).
Returns the updated table and the round's new winners. -/
def stvStep (t : Table) (i : ℕ) (quota : ℤ) :
    Except StvError (Table × List (ℤ × ℤ)) :=
  if i = 0 then
    if (calculate_winners t quota).isEmpty then
      .ok (t, calculate_winners t quota)
    else
      match subtract_votes_from_winners t
          ((calculate_winners t quota).map Prod.fst) quota with
      | .error e => .error (.deduct e)
      | .ok t' => .ok (t', calculate_winners t quota)
  else .ok (transfer_from_losers t, calculate_winners t quota)

/-- The `while len(winners) < n_seats` loop of `single_transferable_vote`,
with an explicit fuel bound on the number of iterations.  After each step
the winners are extended with the round's new winners, the phase flag
toggles (`i = (i + 1) % 2`), and an empty table with unfilled seats ends
the loop early (the source emits a warning and breaks, returning the
winners found so far). -/
def stvLoop : ℕ → Table → List (ℤ × ℤ) → ℕ → ℤ → ℕ →
    Except StvError (List (ℤ × ℤ))
  | 0, _, _, _, _, _ => .error .outOfFuel
  | Nat.succ fuel, t, winners, i, quota, nseats =>
    if winners.length < nseats then
      match stvStep t i quota with
      | .error e => .error e
      | .ok (t', nw) =>
        let winners' := winners ++ nw
        if t' = [] ∧ winners'.length < nseats then .ok winners'
        else stvLoop fuel t' winners' ((i + 1) % 2) quota nseats
    else .ok winners

/-- The Droop quota `floor(len(votes) / (n_seats + 1)) + 1`. -/
def stvQuota (nVotes : ℕ) (nseats : ℕ) : ℕ := nVotes / (nseats + 1) + 1

/-- The seat-count guard of `single_transferable_vote` exactly as written in
the source (line 241): `not isinstance(n_seats, int) and n_seats <= 0`.
For every actual `int` value the first conjunct is false, so the guard
never fires on integers. -/
def seatsGuardTriggers (isInt : Bool) (nSeats : ℤ) : Bool :=
  !isInt && decide (nSeats ≤ 0)

/-- Embedding of `single_transferable_vote(vote, n_seats)`
(src/vote/voting_system.py lines 201-376) for an integer seat count (for
which the seat guard, see `seatsGuardTriggers`, never raises): compute the
Droop quota, fail with `insufficientVotes` when `len(votes) < quota *
n_seats`, then run the winner-selection loop on the aggregated table.
`w` is the key width (the candidate count) and `fuel` bounds the number of
loop iterations of this embedding. -/
def single_transferable_vote (ballots : List (List ℤ)) (w : ℕ)
    (nseats : ℕ) (fuel : ℕ) : Except StvError (List (ℤ × ℤ)) :=
  if ballots.length < stvQuota ballots.length nseats * nseats then
    .error .insufficientVotes
  else stvLoop fuel (aggregate_all w ballots) [] 0
    (stvQuota ballots.length nseats : ℤ) nseats

/-- Trace variant of `stvLoop`, recording the table and accumulated winners
after every loop iteration (used to examine intermediate states of a run;
a deduction error or fuel exhaustion just ends the trace). -/
def stvLoopTrace : ℕ → Table → List (ℤ × ℤ) → ℕ → ℤ → ℕ →
    List (Table × List (ℤ × ℤ))
  | 0, _, _, _, _, _ => []
  | Nat.succ fuel, t, winners, i, quota, nseats =>
    if winners.length < nseats then
      match stvStep t i quota with
      | .error _ => []
      | .ok (t', nw) =>
        let winners' := winners ++ nw
        (t', winners') ::
          (if t' = [] ∧ winners'.length < nseats then []
           else stvLoopTrace fuel t' winners' ((i + 1) % 2) quota nseats)
    else []

/-- The intermediate states of a `single_transferable_vote` run (assuming
the vote-count precondition holds): table and winners after each round. -/
def stvStates (ballots : List (List ℤ)) (w : ℕ) (nseats : ℕ) (fuel : ℕ) :
    List (Table × List (ℤ × ℤ)) :=
  stvLoopTrace fuel (aggregate_all w ballots) [] 0
    (stvQuota ballots.length nseats : ℤ) nseats

/-- Embedding of `first_past_the_post(vote)` (src/vote/voting_system.py
lines 169-198): aggregate by first choice, keep every row whose count
equals the maximum (`df.n_votes == df.n_votes.max()`), and return
(choice, n_votes) pairs in table order.  The returned `Result` object is a
plain list of winners; the class defines no tie flag. -/
def first_past_the_post (ballots : List (List ℤ)) : List (ℤ × ℤ) :=
  let agg := aggregate_first ballots
  let m := (agg.map Prod.snd).max?.getD 0
  (agg.filter (fun p => p.2 == m)).map (fun r => (r.1.headI, r.2))

/-- Embedding of `Vote._validate` (src/vote/voting_system.py lines 56-99)
for integer ballots with an explicit candidate list.  The container and
choice-type asserts hold by typing here; the value asserts are, in source
order: candidates contain no duplicates (line 78), no ballot is longer
than the candidate list (line 81), and `min(choices) >= 0` and
`max(choices) <= len(self.candidates)` (lines 88-89; note `<=` where the
index range `[0, candidate_count)` would require `<`).  Returns `true`
when no assert fires; an empty choice set, on which Python's `min`/`max`
would raise, is modelled as `false`. -/
def vote_validate_int (votes : List (List ℤ)) (cands : List String) : Bool :=
  decide cands.Nodup &&
    votes.all (fun v => v.length ≤ cands.length) &&
    (match (votes.flatten).min?, (votes.flatten).max? with
     | some mn, some mx =>
       decide (0 ≤ mn) && decide (mx ≤ (cands.length : ℤ))
     | _, _ => false)

/-- Embedding of `Vote._validate` for string ballots with an explicit
candidate list: the duplicate-candidate and ballot-length asserts as in
the integer case.  Line 85 computes `choices.issubset(set(self.candidates))`
but never asserts it, so membership of the chosen names in the candidate
list does not influence the result. -/
def vote_validate_str (votes : List (List String)) (cands : List String) :
    Bool :=
  decide cands.Nodup && votes.all (fun v => v.length ≤ cands.length)

/-- The 18 ranked ballots of the repository test
`test_select_correct_multiple_winners`: 5 x [1, 2], 3 x [1, 3],
2 x [2, 1], 2 x [2, 3] and 6 x [3, 2]. -/
def ballots18 : List (List ℤ) :=
  List.replicate 5 [1, 2] ++ List.replicate 3 [1, 3] ++
    List.replicate 2 [2, 1] ++ List.replicate 2 [2, 3] ++
    List.replicate 6 [3, 2]

/-- 25 ballots [1, 2] and 5 ballots [2, 1]: with 2 seats the Droop quota
is 11 and candidate 1 holds more than twice the quota. -/
def ballotsDup : List (List ℤ) :=
  List.replicate 25 [1, 2] ++ List.replicate 5 [2, 1]

/-- 12 ballots [1, 2, 3], 6 ballots [2, 3] and 4 bullet ballots [3]:
three candidates, and the full-length ballots make the longest ballot as
wide as the candidate count, so the real DataFrame construction succeeds.
With 2 seats the Droop quota is 8; candidates 1 and 3 tie at the minimum
after the surplus deduction, and the 4 bullet ballots for candidate 3
exhaust when it is eliminated. -/
def ballotsExhaust : List (List ℤ) :=
  List.replicate 12 [1, 2, 3] ++ List.replicate 6 [2, 3] ++
    List.replicate 4 [3]

/-- 30 ballots [1, 2] and 30 ballots [2, 1]: two candidates, every ballot
full length (so the real DataFrame construction succeeds), and the two
first-choice totals tie at 30. -/
def ballotsTie : List (List ℤ) :=
  List.replicate 30 [1, 2] ++ List.replicate 30 [2, 1]

/-!
Lemmas about the largest-remainder rounding: the rounded values keep the
length of the input, sum to the target exactly, and stay between `0` and
the original counts.
-/

theorem addOnes_length (fl : List ℤ) (k : ℕ) (ch : List ℕ) :
    (addOnes fl k ch).length = fl.length := by
  induction fl generalizing k with
  | nil => rfl
  | cons a tl ih => simp [addOnes, ih]

theorem addOnes_congr (fl : List ℤ) (k : ℕ) (ch ch' : List ℕ)
    (h : ∀ j, k ≤ j → (j ∈ ch ↔ j ∈ ch')) :
    addOnes fl k ch = addOnes fl k ch' := by
  induction fl generalizing k with
  | nil => rfl
  | cons a tl ih =>
    simp only [addOnes]
    rw [if_congr (h k le_rfl) rfl rfl, ih (k + 1) (fun j hj => h j (by omega))]

theorem addOnes_sum (fl : List ℤ) (k : ℕ) (ch : List ℕ) (hnd : ch.Nodup)
    (hsub : ∀ c ∈ ch, k ≤ c ∧ c < k + fl.length) :
    (addOnes fl k ch).sum = fl.sum + ch.length := by
  induction fl generalizing k ch with
  | nil =>
    have hch : ch = [] := by
      cases ch with
      | nil => rfl
      | cons c cs =>
        have h := hsub c (by simp)
        simp only [List.length_nil] at h
        omega
    subst hch
    simp [addOnes]
  | cons a tl ih =>
    by_cases hk : k ∈ ch
    · have herase : addOnes tl (k + 1) ch = addOnes tl (k + 1) (ch.erase k) := by
        apply addOnes_congr
        intro j hj
        rw [hnd.mem_erase_iff]
        constructor
        · intro hm
          exact ⟨by omega, hm⟩
        · exact And.right
      have hsub' : ∀ c ∈ ch.erase k, k + 1 ≤ c ∧ c < (k + 1) + tl.length := by
        intro c hc
        have hc' := hnd.mem_erase_iff.1 hc
        have h2 := hsub c hc'.2
        simp only [List.length_cons] at h2
        have h3 : c ≠ k := hc'.1
        omega
      have hlen : (ch.erase k).length = ch.length - 1 :=
        List.length_erase_of_mem hk
      have hpos : 1 ≤ ch.length := List.length_pos.2 (List.ne_nil_of_mem hk)
      simp only [addOnes, if_pos hk, List.sum_cons, herase,
        ih (k + 1) (ch.erase k) (hnd.erase k) hsub', hlen]
      have : ((ch.length - 1 : ℕ) : ℤ) = (ch.length : ℤ) - 1 := by omega
      rw [this]
      ring
    · have hsub' : ∀ c ∈ ch, k + 1 ≤ c ∧ c < (k + 1) + tl.length := by
        intro c hc
        have h2 := hsub c hc
        simp only [List.length_cons] at h2
        have h3 : c ≠ k := fun h => hk (h ▸ hc)
        omega
      simp only [addOnes, if_neg hk, List.sum_cons, ih (k + 1) ch hnd hsub']
      ring

theorem addOnes_getD (fl : List ℤ) (k : ℕ) (ch : List ℕ) (i : ℕ)
    (h : i < fl.length) :
    (addOnes fl k ch).getD i 0 =
      fl.getD i 0 + (if (k + i) ∈ ch then 1 else 0) := by
  induction fl generalizing k i with
  | nil => simp at h
  | cons a tl ih =>
    cases i with
    | zero =>
      simp only [addOnes, List.getD_cons_zero, Nat.add_zero]
      by_cases hk : k ∈ ch <;> simp [hk]
    | succ j =>
      simp only [addOnes, List.getD_cons_succ]
      rw [ih (k + 1) j (by simpa using h)]
      have : k + 1 + j = k + (j + 1) := by omega
      rw [this]

theorem pd_sum_identity (X : List ℤ) (T : ℤ) :
    X.sum * (T - (pdFloors X T X.sum).sum) = (pdRems X T X.sum).sum := by
  have key : (X.map (fun x => X.sum * (x * T / X.sum) + x * T % X.sum)).sum
      = (X.map (fun x => x * T)).sum := by
    apply congrArg
    apply List.map_congr_left
    intro x _
    exact Int.ediv_add_emod (x * T) X.sum
  have hsplit : (X.map (fun x => X.sum * (x * T / X.sum) + x * T % X.sum)).sum
      = X.sum * (pdFloors X T X.sum).sum + (pdRems X T X.sum).sum := by
    rw [List.sum_map_add]
    rw [List.sum_map_mul_left]
    rfl
  have hmul : (X.map (fun x => x * T)).sum = X.sum * T := by
    have h := List.sum_map_mul_right X (fun x => x) T
    simpa [List.map_id, mul_comm] using h
  rw [hsplit, hmul] at key
  linarith [key]

theorem pdRems_nonneg (X : List ℤ) (T : ℤ) (hS : 0 < X.sum) :
    0 ≤ (pdRems X T X.sum).sum := by
  apply List.sum_nonneg
  intro a ha
  obtain ⟨x, _, rfl⟩ := List.mem_map.1 ha
  exact Int.emod_nonneg (x * T) hS.ne'

theorem pd_R_nonneg (X : List ℤ) (T : ℤ) (hS : 0 < X.sum) :
    0 ≤ T - (pdFloors X T X.sum).sum := by
  have h1 := pd_sum_identity X T
  have h2 := pdRems_nonneg X T hS
  nlinarith

theorem pd_R_lt_length (X : List ℤ) (T : ℤ) (hX : X ≠ []) (hS : 0 < X.sum) :
    T - (pdFloors X T X.sum).sum < X.length := by
  have hbound : (pdRems X T X.sum).sum ≤ (X.length : ℤ) * (X.sum - 1) := by
    have h := List.sum_le_sum (l := X) (f := fun x => x * T % X.sum)
      (g := fun _ => X.sum - 1) ?bound
    · simpa [List.map_const', List.sum_replicate, nsmul_eq_mul] using h
    case bound =>
      intro x _
      show x * T % X.sum ≤ X.sum - 1
      have := Int.emod_lt_of_pos (x * T) hS
      omega
  have hlen : 1 ≤ (X.length : ℤ) := by
    have := List.length_pos.2 hX
    omega
  have h1 := pd_sum_identity X T
  nlinarith

theorem lrChosen_range (rems : List ℤ) :
    ((lrOrder rems).map Prod.fst).Perm (List.range rems.length) := by
  have h1 : (lrOrder rems).Perm rems.enum :=
    List.perm_insertionSort _ rems.enum
  have h2 := h1.map Prod.fst
  simpa [List.enum_map_fst] using h2

theorem lrChosen_nodup (rems : List ℤ) (R : ℕ) : (lrChosen rems R).Nodup :=
  List.Nodup.sublist (List.take_sublist _ _)
    ((lrChosen_range rems).nodup_iff.2 (List.nodup_range _))

theorem lrChosen_mem (rems : List ℤ) (R : ℕ) {j : ℕ}
    (hj : j ∈ lrChosen rems R) : j < rems.length := by
  have h1 : j ∈ (lrOrder rems).map Prod.fst :=
    (List.take_sublist _ _).subset hj
  have h2 := (lrChosen_range rems).mem_iff.1 h1
  exact List.mem_range.1 h2

theorem lrChosen_length (rems : List ℤ) (R : ℕ) (h : R ≤ rems.length) :
    (lrChosen rems R).length = R := by
  have hlen : ((lrOrder rems).map Prod.fst).length = rems.length := by
    rw [(lrChosen_range rems).length_eq, List.length_range]
  simp [lrChosen, List.length_take, hlen, Nat.min_eq_left h]

theorem lrRound_length (X : List ℤ) (T S : ℤ) :
    (lrRound X T S).length = X.length := by
  simp [lrRound, addOnes_length, pdFloors]

theorem lrRound_sum (X : List ℤ) (T : ℤ) (hX : X ≠ []) (hS : 0 < X.sum) :
    (lrRound X T X.sum).sum = T := by
  have hfl : (pdFloors X T X.sum).length = X.length := by simp [pdFloors]
  have hrems : (pdRems X T X.sum).length = X.length := by simp [pdRems]
  have hR0 := pd_R_nonneg X T hS
  have hRlt := pd_R_lt_length X T hX hS
  have hRle : (T - (pdFloors X T X.sum).sum).toNat ≤ X.length := by omega
  rw [lrRound, addOnes_sum _ _ _ (lrChosen_nodup _ _) ?hsub,
    lrChosen_length _ _ (by omega)]
  · omega
  case hsub =>
    intro c hc
    have := lrChosen_mem _ _ hc
    omega

theorem getD_map_lt (f : ℤ → ℤ) (l : List ℤ) (i : ℕ) (h : i < l.length) :
    (l.map f).getD i 0 = f (l.getD i 0) := by
  induction l generalizing i with
  | nil => simp at h
  | cons a tl ih =>
    cases i with
    | zero => simp
    | succ j => simpa using ih j (by simpa using h)

theorem lrRound_getD (X : List ℤ) (T S : ℤ) (i : ℕ) (h : i < X.length) :
    (lrRound X T S).getD i 0 = (pdFloors X T S).getD i 0 +
      (if i ∈ lrChosen (pdRems X T S) (T - (pdFloors X T S).sum).toNat
       then 1 else 0) := by
  have hlen : i < (pdFloors X T S).length := by simpa [pdFloors] using h
  have h0 := addOnes_getD (pdFloors X T S) 0
    (lrChosen (pdRems X T S) (T - (pdFloors X T S).sum).toNat) i hlen
  rw [Nat.zero_add] at h0
  exact h0

theorem lrRound_bounds (X : List ℤ) (n : ℤ) (hpos : ∀ x ∈ X, 0 < x)
    (hn : 0 ≤ n) (hns : n ≤ X.sum) (hS : 0 < X.sum) (i : ℕ)
    (h : i < X.length) :
    0 ≤ (lrRound X (X.sum - n) X.sum).getD i 0 ∧
      (lrRound X (X.sum - n) X.sum).getD i 0 ≤ X.getD i 0 := by
  have hx_mem : X.getD i 0 ∈ X := by
    rw [List.getD_eq_getElem?_getD, List.getElem?_eq_getElem h]
    exact List.getElem_mem h
  have hx : 0 < X.getD i 0 := hpos _ hx_mem
  have hfl : (pdFloors X (X.sum - n) X.sum).getD i 0 =
      X.getD i 0 * (X.sum - n) / X.sum := getD_map_lt _ _ _ h
  have hflnn : 0 ≤ X.getD i 0 * (X.sum - n) / X.sum :=
    Int.ediv_nonneg (mul_nonneg hx.le (by omega)) hS.le
  rw [lrRound_getD X (X.sum - n) X.sum i h, hfl]
  constructor
  · split <;> omega
  · by_cases hn0 : n = 0
    · subst hn0
      have hfl_eq : pdFloors X (X.sum - 0) X.sum = X := by
        unfold pdFloors
        calc X.map (fun x => x * (X.sum - 0) / X.sum)
            = X.map (fun x => x) := by
              apply List.map_congr_left
              intro x _
              rw [sub_zero]
              exact Int.mul_ediv_cancel x hS.ne'
          _ = X := List.map_id' X
      have hch : lrChosen (pdRems X (X.sum - 0) X.sum)
          ((X.sum - 0) - (pdFloors X (X.sum - 0) X.sum).sum).toNat = [] := by
        rw [hfl_eq]
        have : ((X.sum - 0) - X.sum).toNat = 0 := by omega
        rw [this]
        rfl
      rw [hch]
      have heq : X.getD i 0 * (X.sum - 0) / X.sum = X.getD i 0 := by
        rw [sub_zero]
        exact Int.mul_ediv_cancel _ hS.ne'
      have hmem : (if i ∈ ([] : List ℕ) then (1 : ℤ) else 0) = 0 := by simp
      rw [hmem, add_zero, heq]
    · have hTlt : X.sum - n < X.sum := by omega
      have hlt : X.getD i 0 * (X.sum - n) / X.sum < X.getD i 0 := by
        rw [Int.ediv_lt_iff_lt_mul hS]
        exact mul_lt_mul_of_pos_left hTlt hx
      split <;> omega

theorem pd_ok (X : List ℤ) (n : ℤ) (s : String) (hX : X ≠ [])
    (hpos : ∀ x ∈ X, 0 < x) (hn : 0 ≤ n) (hns : n ≤ X.sum)
    (hs : s ∈ strategies) :
    proportional_deduction_retain_int X n s =
      .ok (lrRound X (X.sum - n) X.sum) := by
  have hS : 0 < X.sum := List.sum_pos X hpos hX
  have h1 : ¬ n < 0 := not_lt.2 hn
  have h3 : ¬ X.min?.getD 0 < 0 := by
    cases hm : X.min? with
    | none => simp
    | some m =>
      have hmem : m ∈ X := List.min?_mem (fun a b => min_choice a b) hm
      have hmpos := hpos m hmem
      simp only [Option.getD_some]
      omega
  have h4 : ¬ X.sum < n := not_lt.2 hns
  have h5 : ¬ X.sum = 0 := hS.ne'
  have h6 : (lrRound X (X.sum - n) X.sum).sum = X.sum - n :=
    lrRound_sum X (X.sum - n) hX hS
  have h7 : ¬ X.sum ≠ (lrRound X (X.sum - n) X.sum).sum + n := by
    rw [h6]
    omega
  simp only [proportional_deduction_retain_int, if_neg h1, if_neg hX,
    if_neg h3, if_pos hs, if_neg h4, if_neg h5, if_neg h7]

theorem pd_spec (X : List ℤ) (n : ℤ) (s : String) (hX : X ≠ [])
    (hpos : ∀ x ∈ X, 0 < x) (hn : 0 ≤ n) (hns : n ≤ X.sum)
    (hs : s ∈ strategies) :
    ∃ Y, proportional_deduction_retain_int X n s = .ok Y ∧
      Y.length = X.length ∧ Y.sum = X.sum - n ∧
      ∀ i < X.length, 0 ≤ Y.getD i 0 ∧ Y.getD i 0 ≤ X.getD i 0 := by
  have hS : 0 < X.sum := List.sum_pos X hpos hX
  refine ⟨_, pd_ok X n s hX hpos hn hns hs, lrRound_length X (X.sum - n) X.sum,
    lrRound_sum X (X.sum - n) hX hS, ?_⟩
  intro i hi
  exact lrRound_bounds X n hpos hn hns hS i hi

/-!
Lemmas about count tables: `regroup` preserves the total count and is
invariant under permutation of its input rows, and the two transformation
steps of the STV loop change the total count in an exactly described way.
-/

theorem sumCounts_cons (r : Row) (tl : Table) :
    sumCounts (r :: tl) = r.2 + sumCounts tl := by
  simp [sumCounts]

theorem sumCounts_append (a b : Table) :
    sumCounts (a ++ b) = sumCounts a + sumCounts b := by
  simp [sumCounts]

theorem sumCounts_filter_partition (l : Table) (p : Row → Bool) :
    sumCounts (l.filter p) + sumCounts (l.filter (fun r => !p r)) =
      sumCounts l := by
  induction l with
  | nil => rfl
  | cons r tl ih =>
    by_cases hp : p r
    · simp [List.filter_cons, hp, sumCounts_cons]
      omega
    · simp only [Bool.not_eq_true] at hp
      simp [List.filter_cons, hp, sumCounts_cons]
      omega

theorem sumCounts_filter_nonzero (l : Table) :
    sumCounts (l.filter (fun r => r.2 != 0)) = sumCounts l := by
  induction l with
  | nil => rfl
  | cons r tl ih =>
    by_cases hz : r.2 = 0
    · simp [List.filter_cons, hz, sumCounts_cons, ih]
    · simp [List.filter_cons, hz, sumCounts_cons, ih]

theorem weightOf_cons (r : Row) (tl : Table) (k : List ℤ) :
    weightOf (r :: tl) k = (if r.1 = k then r.2 else 0) + weightOf tl k := by
  by_cases h : r.1 = k
  · simp [weightOf, List.filter_cons, h]
  · simp [weightOf, List.filter_cons, h]

theorem sum_ite_key (ks : List (List ℤ)) (k0 : List ℤ) (c : ℤ)
    (hnd : ks.Nodup) (hmem : k0 ∈ ks) :
    (ks.map (fun k => if k0 = k then c else 0)).sum = c := by
  induction ks with
  | nil => simp at hmem
  | cons a tl ih =>
    rcases List.mem_cons.1 hmem with rfl | htl
    · have hnotin : k0 ∉ tl := (List.nodup_cons.1 hnd).1
      have hzero : (tl.map (fun k => if k0 = k then c else 0)).sum = 0 := by
        apply List.sum_eq_zero
        intro x hx
        obtain ⟨k, hk, rfl⟩ := List.mem_map.1 hx
        rw [if_neg]
        rintro rfl
        exact hnotin hk
      simp [hzero]
    · have hne : k0 ≠ a := by
        rintro rfl
        exact (List.nodup_cons.1 hnd).1 htl
      simp [if_neg hne, ih (List.nodup_cons.1 hnd).2 htl]

theorem sum_map_weightOf (rows : Table) (ks : List (List ℤ))
    (hnd : ks.Nodup) (hcov : ∀ r ∈ rows, r.1 ∈ ks) :
    (ks.map (weightOf rows)).sum = sumCounts rows := by
  induction rows with
  | nil =>
    have hz : ∀ x ∈ ks.map (weightOf ([] : Table)), x = 0 := by
      intro x hx
      obtain ⟨k, _, rfl⟩ := List.mem_map.1 hx
      rfl
    simp [sumCounts, List.sum_eq_zero hz]
  | cons r tl ih =>
    have hexp : (ks.map (weightOf (r :: tl))).sum =
        (ks.map (fun k => if r.1 = k then r.2 else 0)).sum +
          (ks.map (weightOf tl)).sum := by
      rw [← List.sum_map_add]
      apply congrArg
      apply List.map_congr_left
      intro k _
      rw [weightOf_cons]
    rw [hexp, sum_ite_key ks r.1 r.2 hnd (hcov r (by simp)),
      ih (fun x hx => hcov x (by simp [hx])), sumCounts_cons]

theorem regroup_sum (rows : Table) :
    sumCounts (regroup rows) = sumCounts rows := by
  have h1 : sumCounts (regroup rows) =
      ((((rows.map Prod.fst).dedup).insertionSort
        (fun a b => a ≤ b)).map (weightOf rows)).sum := by
    simp only [regroup, sumCounts, List.map_map]
    apply congrArg List.sum
    apply List.map_congr_left
    intro k _
    rfl
  have hperm : ((((rows.map Prod.fst).dedup).insertionSort
      (fun a b => a ≤ b)).map (weightOf rows)).sum =
      (((rows.map Prod.fst).dedup).map (weightOf rows)).sum :=
    ((List.perm_insertionSort _ _).map (weightOf rows)).sum_eq
  rw [h1, hperm]
  apply sum_map_weightOf
  · exact List.nodup_dedup _
  · intro r hr
    exact List.mem_dedup.2 (List.mem_map_of_mem Prod.fst hr)

theorem regroup_perm (rows1 rows2 : Table) (h : rows1.Perm rows2) :
    regroup rows1 = regroup rows2 := by
  have hkeys : ((rows1.map Prod.fst).dedup).Perm
      ((rows2.map Prod.fst).dedup) := (h.map Prod.fst).dedup
  have hsorted : ((rows1.map Prod.fst).dedup).insertionSort
      (fun a b => a ≤ b) =
      ((rows2.map Prod.fst).dedup).insertionSort (fun a b => a ≤ b) := by
    apply List.eq_of_perm_of_sorted
      (((List.perm_insertionSort _ _).trans hkeys).trans
        (List.perm_insertionSort _ _).symm)
      (List.sorted_insertionSort _ _) (List.sorted_insertionSort _ _)
  have hweight : ∀ k, weightOf rows1 k = weightOf rows2 k := by
    intro k
    exact ((h.filter _).map Prod.snd).sum_eq
  rw [regroup, regroup, hsorted]
  apply List.map_congr_left
  intro k _
  rw [hweight k]

theorem transferRows_sum (t : Table) : sumCounts (transferRows t) = sumCounts t := by
  rw [transferRows, sumCounts_append]
  have hmap : sumCounts ((t.filter
      (fun r => (losersOf t).contains (firstChoice r))).map
        (fun r => (shiftKey r.1, r.2))) =
      sumCounts (t.filter (fun r => (losersOf t).contains (firstChoice r))) := by
    simp only [sumCounts, List.map_map]
    apply congrArg List.sum
    apply List.map_congr_left
    intro r _
    rfl
  rw [hmap]
  have hpart := sumCounts_filter_partition t
    (fun r => (losersOf t).contains (firstChoice r))
  omega

theorem transfer_sum (t : Table) :
    sumCounts (transfer_from_losers t) = sumCounts t - exhaustedVotes t := by
  rw [transfer_from_losers, regroup_sum]
  have hpart := sumCounts_filter_partition (transferRows t)
    (fun r => allSentinel r.1)
  have hex : exhaustedVotes t =
      sumCounts ((transferRows t).filter (fun r => allSentinel r.1)) := rfl
  have htr := transferRows_sum t
  omega

theorem replaceCounts_map_fst (t : Table) (wid : ℤ) (ded : List ℤ) :
    (replaceCounts t wid ded).map Prod.fst = t.map Prod.fst := by
  induction t generalizing ded with
  | nil => rfl
  | cons r tl ih =>
    by_cases h : firstChoice r = wid
    · cases ded with
      | nil => simp [replaceCounts, h, ih]
      | cons d ds => simp [replaceCounts, h, ih]
    · simp [replaceCounts, h, ih]

theorem winnerValues_cons (r : Row) (tl : Table) (c : ℤ) :
    winnerValues (r :: tl) c =
      (if firstChoice r = c then [r.2] else []) ++ winnerValues tl c := by
  by_cases h : firstChoice r = c
  · simp [winnerValues, List.filter_cons, h]
  · simp [winnerValues, List.filter_cons, h]

theorem winnerValues_replaceCounts (t : Table) (wid : ℤ) (ded : List ℤ)
    (hlen : ded.length = (winnerValues t wid).length) :
    winnerValues (replaceCounts t wid ded) wid = ded := by
  induction t generalizing ded with
  | nil =>
    have : ded = [] := List.length_eq_zero.1 (by simpa [winnerValues] using hlen)
    simp [this, replaceCounts, winnerValues]
  | cons r tl ih =>
    by_cases h : firstChoice r = wid
    · rw [winnerValues_cons, if_pos h] at hlen
      cases ded with
      | nil => simp at hlen
      | cons d ds =>
        have hfst : firstChoice ((r.1, d) : Row) = wid := h
        have hlen' : ds.length = (winnerValues tl wid).length := by
          simp only [List.length_cons, List.length_append,
            List.length_nil] at hlen
          omega
        simp only [replaceCounts, h, beq_iff_eq, if_true]
        rw [winnerValues_cons, if_pos hfst, List.singleton_append, ih ds hlen']
    · rw [winnerValues_cons, if_neg h, List.nil_append] at hlen
      simp only [replaceCounts, h, beq_iff_eq, if_false]
      rw [winnerValues_cons, if_neg h, List.nil_append, ih ded hlen]

theorem winnerValues_replaceCounts_ne (t : Table) (wid c : ℤ) (ded : List ℤ)
    (hne : c ≠ wid) :
    winnerValues (replaceCounts t wid ded) c = winnerValues t c := by
  induction t generalizing ded with
  | nil => rfl
  | cons r tl ih =>
    by_cases h : firstChoice r = wid
    · cases ded with
      | nil =>
        simp only [replaceCounts, h, beq_iff_eq, if_true]
        rw [winnerValues_cons, winnerValues_cons, ih]
      | cons d ds =>
        have hrc : firstChoice r ≠ c := by
          intro hc
          omega
        have hfst : firstChoice ((r.1, d) : Row) = firstChoice r := rfl
        simp only [replaceCounts, h, beq_iff_eq, if_true]
        rw [winnerValues_cons, winnerValues_cons, hfst, if_neg hrc,
          if_neg hrc, ih ds]
    · simp only [replaceCounts, h, beq_iff_eq, if_false]
      rw [winnerValues_cons, winnerValues_cons, ih ded]

theorem replaceCounts_sum (t : Table) (wid : ℤ) (ded : List ℤ)
    (hlen : ded.length = (winnerValues t wid).length) :
    sumCounts (replaceCounts t wid ded) =
      sumCounts t - (winnerValues t wid).sum + ded.sum := by
  induction t generalizing ded with
  | nil =>
    have : ded = [] := List.length_eq_zero.1 (by simpa [winnerValues] using hlen)
    simp [this, replaceCounts, sumCounts, winnerValues]
  | cons r tl ih =>
    by_cases h : firstChoice r = wid
    · rw [winnerValues_cons, if_pos h] at hlen
      cases ded with
      | nil => simp at hlen
      | cons d ds =>
        simp only [replaceCounts, h, beq_iff_eq, if_true]
        rw [sumCounts_cons, sumCounts_cons, winnerValues_cons, if_pos h]
        simp only [List.singleton_append, List.length_cons] at hlen
        rw [ih ds (by omega)]
        simp [List.sum_cons]
        ring
    · rw [winnerValues_cons, if_neg h, List.nil_append] at hlen
      simp only [replaceCounts, h, beq_iff_eq, if_false]
      rw [sumCounts_cons, sumCounts_cons, winnerValues_cons, if_neg h,
        List.nil_append, ih ded hlen]
      ring

theorem replaceCounts_mem (t : Table) (wid : ℤ) (ded : List ℤ) (r : Row)
    (hr : r ∈ replaceCounts t wid ded) : r ∈ t ∨ r.2 ∈ ded := by
  induction t generalizing ded with
  | nil => simp [replaceCounts] at hr
  | cons a tl ih =>
    by_cases h : firstChoice a = wid
    · cases ded with
      | nil =>
        simp only [replaceCounts, h, beq_iff_eq, if_true] at hr
        rcases List.mem_cons.1 hr with rfl | htl
        · exact Or.inl (by simp)
        · rcases ih [] htl with hin | hd
          · exact Or.inl (by simp [hin])
          · exact Or.inr hd
      | cons d ds =>
        simp only [replaceCounts, h, beq_iff_eq, if_true] at hr
        rcases List.mem_cons.1 hr with rfl | htl
        · exact Or.inr (by simp)
        · rcases ih ds htl with hin | hd
          · exact Or.inl (by simp [hin])
          · exact Or.inr (by simp [hd])
    · simp only [replaceCounts, h, beq_iff_eq, if_false] at hr
      rcases List.mem_cons.1 hr with rfl | htl
      · exact Or.inl (by simp)
      · rcases ih ded htl with hin | hd
        · exact Or.inl (by simp [hin])
        · exact Or.inr hd

theorem sum_filter_nonzero_int (l : List ℤ) :
    (l.filter (fun v => v != 0)).sum = l.sum := by
  induction l with
  | nil => rfl
  | cons a tl ih =>
    by_cases h : a = 0
    · simp [List.filter_cons, h, ih]
    · simp [List.filter_cons, h, ih]

theorem winnerValues_filter_nonzero (t : Table) (c : ℤ) :
    winnerValues (t.filter (fun r => r.2 != 0)) c =
      (winnerValues t c).filter (fun v => v != 0) := by
  induction t with
  | nil => rfl
  | cons r tl ih =>
    by_cases h2 : r.2 = 0
    · by_cases h1 : firstChoice r = c
      · simp [winnerValues_cons, List.filter_cons, h1, h2, ih]
      · simp [winnerValues_cons, List.filter_cons, h1, h2, ih]
    · by_cases h1 : firstChoice r = c
      · simp [winnerValues_cons, List.filter_cons, h1, h2, ih]
      · simp [winnerValues_cons, List.filter_cons, h1, h2, ih]

theorem lrRound_mem_nonneg (X : List ℤ) (n : ℤ) (hpos : ∀ x ∈ X, 0 < x)
    (hn : 0 ≤ n) (hns : n ≤ X.sum) (hS : 0 < X.sum) :
    ∀ y ∈ lrRound X (X.sum - n) X.sum, 0 ≤ y := by
  intro y hy
  obtain ⟨i, hi, rfl⟩ := List.mem_iff_getElem.1 hy
  have hlen : i < X.length := by
    have := lrRound_length X (X.sum - n) X.sum
    omega
  have hb := (lrRound_bounds X n hpos hn hns hS i hlen).1
  rw [List.getD_eq_getElem?_getD, List.getElem?_eq_getElem hi] at hb
  simpa using hb

theorem subtract_spec (t : Table) (wid q : ℤ)
    (hpos : ∀ r ∈ t, 0 < r.2)
    (hne : winnerValues t wid ≠ [])
    (hq : 0 ≤ q) (hqs : q ≤ totalFor t wid) :
    ∃ t', subtract_votes_from_winners t [wid] q = .ok t' ∧
      sumCounts t' = sumCounts t - q ∧
      totalFor t' wid = totalFor t wid - q ∧
      (∀ r ∈ t', 0 < r.2) ∧
      (∀ r ∈ t', r.1 ∈ t.map Prod.fst) := by
  have hVpos : ∀ x ∈ winnerValues t wid, 0 < x := by
    intro x hx
    obtain ⟨r, hr, rfl⟩ := List.mem_map.1 hx
    exact hpos r (List.mem_of_mem_filter hr)
  have hSpos : 0 < (winnerValues t wid).sum :=
    List.sum_pos _ hVpos hne
  have hds := pd_ok (winnerValues t wid) q "difference" hne hVpos hq hqs
    (by simp [strategies])
  have hYlen : (lrRound (winnerValues t wid)
      ((winnerValues t wid).sum - q) (winnerValues t wid).sum).length =
      (winnerValues t wid).length := lrRound_length _ _ _
  have hYsum : (lrRound (winnerValues t wid)
      ((winnerValues t wid).sum - q) (winnerValues t wid).sum).sum =
      (winnerValues t wid).sum - q := lrRound_sum _ _ hne hSpos
  have hsub : subtract_votes_from_winners t [wid] q =
      .ok ((replaceCounts t wid (lrRound (winnerValues t wid)
        ((winnerValues t wid).sum - q) (winnerValues t wid).sum)).filter
          (fun r => r.2 != 0)) := by
    simp [subtract_votes_from_winners, List.foldlM, subtractOne, hds]
  refine ⟨_, hsub, ?_, ?_, ?_, ?_⟩
  · rw [sumCounts_filter_nonzero,
      replaceCounts_sum t wid _ (by rw [hYlen]), hYsum]
    ring
  · rw [totalFor, totalFor, winnerValues_filter_nonzero,
      winnerValues_replaceCounts t wid _ (by rw [hYlen]),
      sum_filter_nonzero_int, hYsum]
  · intro r hr
    have hr1 := List.mem_of_mem_filter hr
    have hrne : r.2 ≠ 0 := by simpa using List.of_mem_filter hr
    rcases replaceCounts_mem t wid _ r hr1 with hin | hd
    · exact hpos r hin
    · have := lrRound_mem_nonneg (winnerValues t wid) q hVpos hq hqs
        hSpos r.2 hd
      omega
  · intro r hr
    have hr1 := List.mem_of_mem_filter hr
    have hm : r.1 ∈ (replaceCounts t wid (lrRound (winnerValues t wid)
        ((winnerValues t wid).sum - q) (winnerValues t wid).sum)).map
          Prod.fst := List.mem_map_of_mem Prod.fst hr1
    rwa [replaceCounts_map_fst] at hm

theorem mem_choiceTotals (t : Table) (c x : ℤ) :
    (c, x) ∈ choiceTotals t ↔ c ∈ t.map firstChoice ∧ x = totalFor t c := by
  constructor
  · intro h
    obtain ⟨c', hc', heq⟩ := List.mem_map.1 h
    have h1 : c' = c := congrArg Prod.fst heq
    have h2 : totalFor t c' = x := congrArg Prod.snd heq
    have hc2 : c' ∈ (t.map firstChoice).dedup :=
      (List.perm_insertionSort (fun a b : ℤ => a ≤ b) _).mem_iff.1 hc'
    refine ⟨h1 ▸ List.mem_dedup.1 hc2, ?_⟩
    rw [← h2, h1]
  · rintro ⟨hc, rfl⟩
    apply List.mem_map.2
    refine ⟨c, ?_, rfl⟩
    exact (List.perm_insertionSort (fun a b : ℤ => a ≤ b) _).mem_iff.2
      (List.mem_dedup.2 hc)

theorem mem_firstChoices_iff (t : Table) (c : ℤ) :
    c ∈ t.map firstChoice ↔ winnerValues t c ≠ [] := by
  constructor
  · intro h
    obtain ⟨r, hr, rfl⟩ := List.mem_map.1 h
    intro hnil
    have hmem : r ∈ t.filter (fun r' => firstChoice r' == firstChoice r) :=
      List.mem_filter.2 ⟨hr, by simp⟩
    rw [winnerValues, List.map_eq_nil_iff] at hnil
    rw [hnil] at hmem
    simp at hmem
  · intro h
    cases hf : t.filter (fun r => firstChoice r == c) with
    | nil => exact absurd (by rw [winnerValues, hf]; rfl) h
    | cons r rs =>
      have hr : r ∈ t.filter (fun r' => firstChoice r' == c) := by
        rw [hf]
        simp
      have hrf := List.mem_filter.1 hr
      exact List.mem_map.2 ⟨r, hrf.1, by simpa using hrf.2⟩

theorem mem_calculate_winners (t : Table) (q c : ℤ) :
    c ∈ (calculate_winners t q).map Prod.fst ↔
      c ∈ t.map firstChoice ∧ q ≤ totalFor t c := by
  constructor
  · intro h
    obtain ⟨p, hmem, heq⟩ := List.mem_map.1 h
    have hmem2 := List.mem_of_mem_filter hmem
    have hqx : q ≤ p.2 := by simpa using List.of_mem_filter hmem
    have hct : (p.1, p.2) ∈ choiceTotals t := by
      have hp := (List.perm_insertionSort
        (fun a b : ℤ × ℤ => b.2 ≤ a.2) _).mem_iff.1 hmem2
      simpa using hp
    obtain ⟨hc, hx⟩ := (mem_choiceTotals t p.1 p.2).1 hct
    refine ⟨heq ▸ hc, ?_⟩
    rw [← heq, ← hx]
    exact hqx
  · rintro ⟨hc, hq⟩
    apply List.mem_map.2
    refine ⟨(c, totalFor t c), ?_, rfl⟩
    apply List.mem_filter.2
    refine ⟨?_, by simpa using hq⟩
    exact (List.perm_insertionSort (fun a b : ℤ × ℤ => b.2 ≤ a.2) _).mem_iff.2
      ((mem_choiceTotals t c _).2 ⟨hc, rfl⟩)

theorem stvStep_ne_insufficient (t : Table) (i : ℕ) (q : ℤ) :
    stvStep t i q ≠ .error .insufficientVotes := by
  unfold stvStep
  split
  · split
    · simp
    · cases h : subtract_votes_from_winners t
          ((calculate_winners t q).map Prod.fst) q with
      | error e => simp [h]
      | ok t' => simp [h]
  · simp

theorem stvLoop_ne_insufficient (fuel : ℕ) (t : Table)
    (ws : List (ℤ × ℤ)) (i : ℕ) (quota : ℤ) (nseats : ℕ) :
    stvLoop fuel t ws i quota nseats ≠ .error .insufficientVotes := by
  induction fuel generalizing t ws i with
  | zero => simp [stvLoop]
  | succ fuel ih =>
    simp only [stvLoop]
    split
    · cases hstep : stvStep t i quota with
      | error e =>
        intro hc
        simp at hc
        exact stvStep_ne_insufficient t i quota (hc ▸ hstep)
      | ok pr =>
        obtain ⟨t', nw⟩ := pr
        show (if t' = [] ∧ (ws ++ nw).length < nseats then
            Except.ok (ws ++ nw)
          else stvLoop fuel t' (ws ++ nw) ((i + 1) % 2) quota nseats) ≠
          Except.error StvError.insufficientVotes
        split
        · simp
        · exact ih _ _ _
    · simp

/-!
The claims.
-/

/-- C1, counterexample: vote conservation fails as claimed.  Running the
STV tally on `ballotsExhaust` (22 ballots over 3 candidates whose longest
ballot ranks all 3, so the real DataFrame construction succeeds; 2 seats,
quota 8): candidate 1 wins round one with 12 votes and its rows are
deducted down to 4 (state 0 of the trace, still balanced: 14 + 8 = 22),
then the elimination round removes the tied-minimum candidates 1 and 3
and drops the 4 exhausted bullet ballots for candidate 3, leaving a table
of 10 votes with one confirmed winner: 10 + 8 = 18, not the original
22. -/
theorem C1_counterexample :
    ballotsExhaust.length = 22 ∧ stvQuota ballotsExhaust.length 2 = 8 ∧
    ((stvStates ballotsExhaust 3 2 10)[1]?).map
      (fun s => sumCounts s.1 + 8 * (s.2.length : ℤ)) = some 18 ∧
    (18 : ℤ) ≠ 22 :=
  ⟨by rfl, by rfl, by rfl, by decide⟩

/-- C1, amended: vote totals are conserved up to the exactly described
losses.  A surplus deduction for a winner with positive rows and total at
least the quota reduces the table total by exactly the quota; a
loser-elimination transfer reduces the table total by exactly the votes
on rows whose ballots exhausted all preferences (`exhaustedVotes`); no
other transformation changes the total. -/
theorem C1_conservation_amended :
    (∀ (t : Table) (wid q : ℤ), (∀ r ∈ t, 0 < r.2) →
      winnerValues t wid ≠ [] → 0 ≤ q → q ≤ totalFor t wid →
      ∃ t', subtract_votes_from_winners t [wid] q = .ok t' ∧
        sumCounts t' = sumCounts t - q) ∧
    (∀ t : Table,
      sumCounts (transfer_from_losers t) = sumCounts t - exhaustedVotes t) := by
  constructor
  · intro t wid q hpos hne hq hqs
    obtain ⟨t', h1, h2, _, _, _⟩ := subtract_spec t wid q hpos hne hq hqs
    exact ⟨t', h1, h2⟩
  · exact transfer_sum

/-- Witness for `C1_conservation_amended` at the aggregated table of
`ballotsExhaust` (a table the real code reaches), winner 1, quota 8. -/
theorem C1_conservation_amended_witness :
    ((∀ r ∈ aggregate_all 3 ballotsExhaust, 0 < r.2) ∧
      winnerValues (aggregate_all 3 ballotsExhaust) 1 ≠ [] ∧
      (0 : ℤ) ≤ 8 ∧
      (8 : ℤ) ≤ totalFor (aggregate_all 3 ballotsExhaust) 1) ∧
    (∃ t', subtract_votes_from_winners (aggregate_all 3 ballotsExhaust)
        [1] 8 = .ok t' ∧
      sumCounts t' = sumCounts (aggregate_all 3 ballotsExhaust) - 8) ∧
    sumCounts (transfer_from_losers (aggregate_all 3 ballotsExhaust)) =
      sumCounts (aggregate_all 3 ballotsExhaust) -
        exhaustedVotes (aggregate_all 3 ballotsExhaust) :=
  ⟨⟨by decide, by decide, by decide, by decide⟩,
    C1_conservation_amended.1 (aggregate_all 3 ballotsExhaust) 1 8
      (by decide) (by decide) (by decide) (by decide),
    C1_conservation_amended.2 (aggregate_all 3 ballotsExhaust)⟩

/-- C2, counterexample: for the empty sequence (vacuously a sequence of
positive integers) and deficit 0 (which satisfies 0 <= n <= sum(X) = 0),
`proportional_deduction_retain_int` does not return a sequence at all:
the `min(X)` validation raises `ValueError` on an empty sequence. -/
theorem C2_counterexample :
    proportional_deduction_retain_int [] 0 "difference" =
      .error .invalidDeduction := by rfl

/-- C2, amended: for every nonempty sequence X of positive integer counts
and deficit n with 0 <= n <= sum(X), the deduction returns a sequence Y
of the same length with 0 <= Y[i] <= X[i] at every index and
sum(Y) = sum(X) - n exactly. -/
theorem C2_deduction_contract_amended (X : List ℤ) (n : ℤ)
    (hX : X ≠ []) (hpos : ∀ x ∈ X, 0 < x) (hn : 0 ≤ n) (hns : n ≤ X.sum) :
    ∃ Y, proportional_deduction_retain_int X n "difference" = .ok Y ∧
      Y.length = X.length ∧ Y.sum = X.sum - n ∧
      ∀ i < X.length, 0 ≤ Y.getD i 0 ∧ Y.getD i 0 ≤ X.getD i 0 :=
  pd_spec X n "difference" hX hpos hn hns (by simp [strategies])

/-- Witness for `C2_deduction_contract_amended` at the spec's example
X = [10, 20, 30], n = 6. -/
theorem C2_deduction_contract_amended_witness :
    (([10, 20, 30] : List ℤ) ≠ [] ∧
      (∀ x ∈ ([10, 20, 30] : List ℤ), 0 < x) ∧
      (0 : ℤ) ≤ 6 ∧ (6 : ℤ) ≤ ([10, 20, 30] : List ℤ).sum) ∧
    (∃ Y, proportional_deduction_retain_int [10, 20, 30] 6 "difference" =
        .ok Y ∧
      Y.length = ([10, 20, 30] : List ℤ).length ∧
      Y.sum = ([10, 20, 30] : List ℤ).sum - 6 ∧
      ∀ i < ([10, 20, 30] : List ℤ).length,
        0 ≤ Y.getD i 0 ∧ Y.getD i 0 ≤ ([10, 20, 30] : List ℤ).getD i 0) :=
  ⟨⟨by decide, by decide, by decide, by decide⟩,
    C2_deduction_contract_amended [10, 20, 30] 6 (by decide) (by decide)
      (by decide) (by decide)⟩

/-- C3, counterexample: the surplus step does not leave a winner's rows
retaining the quota.  On the aggregated 18-ballot table, winner 1 holds a
total of 8 with quota 7; `subtract_votes_from_winners` deducts the quota
from the rows, so they retain 1 vote (the surplus), not 7. -/
theorem C3_counterexample :
    subtract_votes_from_winners (aggregate_all 3 ballots18) [1] 7 =
      .ok [([1, 2, -1], 1), ([2, 1, -1], 2), ([2, 3, -1], 2),
        ([3, 2, -1], 6)] ∧
    totalFor [([1, 2, -1], 1), ([2, 1, -1], 2), ([2, 3, -1], 2),
      ([3, 2, -1], 6)] 1 = 1 ∧
    totalFor (aggregate_all 3 ballots18) 1 = 8 ∧
    stvQuota ballots18.length 2 = 7 ∧ (1 : ℤ) ≠ 7 :=
  ⟨by rfl, by rfl, by rfl, by rfl, by decide⟩

/-- C3, amended: applying the proportional deduction with deficit = quota
to a new winner's rows leaves those rows retaining exactly total - quota
(the surplus) in aggregate; rows whose count becomes zero are dropped and
every remaining row keeps a ranking that already appeared in the table. -/
theorem C3_surplus_retention_amended (t : Table) (wid q : ℤ)
    (hpos : ∀ r ∈ t, 0 < r.2) (hne : winnerValues t wid ≠ [])
    (hq : 0 ≤ q) (hqs : q ≤ totalFor t wid) :
    ∃ t', subtract_votes_from_winners t [wid] q = .ok t' ∧
      totalFor t' wid = totalFor t wid - q ∧
      (∀ r ∈ t', r.2 ≠ 0) ∧
      (∀ r ∈ t', r.1 ∈ t.map Prod.fst) := by
  obtain ⟨t', h1, _, h3, h4, h5⟩ := subtract_spec t wid q hpos hne hq hqs
  exact ⟨t', h1, h3, fun r hr => (h4 r hr).ne', h5⟩

/-- Witness for `C3_surplus_retention_amended` at the aggregated
18-ballot table, winner 3, quota 7. -/
theorem C3_surplus_retention_amended_witness :
    ((∀ r ∈ aggregate_all 3 ballots18, 0 < r.2) ∧
      winnerValues (aggregate_all 3 ballots18) 3 ≠ [] ∧
      (0 : ℤ) ≤ 6 ∧ (6 : ℤ) ≤ totalFor (aggregate_all 3 ballots18) 3) ∧
    (∃ t', subtract_votes_from_winners (aggregate_all 3 ballots18) [3] 6 =
        .ok t' ∧
      totalFor t' 3 = totalFor (aggregate_all 3 ballots18) 3 - 6 ∧
      (∀ r ∈ t', r.2 ≠ 0) ∧
      (∀ r ∈ t', r.1 ∈ (aggregate_all 3 ballots18).map Prod.fst)) :=
  ⟨⟨by decide, by decide, by decide, by decide⟩,
    C3_surplus_retention_amended (aggregate_all 3 ballots18) 3 6
      (by decide) (by decide) (by decide) (by decide)⟩

/-- C4: evaluation of the embedded `first_past_the_post` on `ballotsTie`
(30 x [1, 2], 30 x [2, 1]: two candidates, every ballot full width, so
the real `Vote.aggregate` succeeds and the real tally reaches the winner
computation): it returns exactly the two co-leaders, each carrying the
maximum count 30, in table order.  The claim's tie flag, however, does
not exist in the code: the `Result` class defines no tie attribute, and
the repository's tests read `my_result.is_tie`, which raises
`AttributeError`.  (The spec's own single-choice tie example,
5 x [A] / 30 x [B] / 30 x [C], does not even reach this point in the real
code: with no ballot ranking all three candidates the DataFrame
constructor in `Vote.aggregate` raises first.) -/
theorem C4_fptp_winners_eval :
    first_past_the_post ballotsTie = [(1, 30), (2, 30)] := by rfl

/-- C5, counterexample: a winner is not removed from future first-choice
consideration and can be declared twice.  With 25 ballots [1, 2] and 5
ballots [2, 1] and 2 seats (quota 11), candidate 1 is declared in round
one with 25 votes, retains 25 - 11 = 14 >= 11 after the surplus
deduction, and is declared again in round two: the winners list contains
candidate 1 twice. -/
theorem C5_counterexample :
    single_transferable_vote ballotsDup 2 2 10 = .ok [(1, 25), (1, 14)] ∧
    ¬ (([(1, 25), (1, 14)] : List (ℤ × ℤ)).map Prod.fst).Nodup :=
  ⟨by rfl, by decide⟩

/-- C5, amended: a declared winner's rows have exactly the quota deducted,
but the winner keeps contributing to first-choice totals; after the
deduction the winner appears among the next round's winners if and only
if its remaining total (old total minus quota) still reaches the quota,
so the winners list can contain the same candidate twice. -/
theorem C5_winner_redeclaration_amended (t : Table) (wid q : ℤ)
    (hpos : ∀ r ∈ t, 0 < r.2) (hne : winnerValues t wid ≠ [])
    (hq1 : 1 ≤ q) (hqs : q ≤ totalFor t wid) :
    ∃ t', subtract_votes_from_winners t [wid] q = .ok t' ∧
      totalFor t' wid = totalFor t wid - q ∧
      (wid ∈ (calculate_winners t' q).map Prod.fst ↔
        q ≤ totalFor t wid - q) := by
  obtain ⟨t', h1, _, h3, h4, _⟩ := subtract_spec t wid q hpos hne
    (by omega) hqs
  refine ⟨t', h1, h3, ?_⟩
  rw [mem_calculate_winners]
  constructor
  · rintro ⟨_, hle⟩
    rwa [h3] at hle
  · intro hle
    refine ⟨?_, by rwa [h3]⟩
    rw [mem_firstChoices_iff]
    intro hnil
    have hz : totalFor t' wid = 0 := by
      rw [totalFor, hnil]
      rfl
    omega

/-- Witness for `C5_winner_redeclaration_amended` at the aggregated table
of the duplicate-winner ballots, winner 1, quota 11. -/
theorem C5_winner_redeclaration_amended_witness :
    ((∀ r ∈ aggregate_all 2 ballotsDup, 0 < r.2) ∧
      winnerValues (aggregate_all 2 ballotsDup) 1 ≠ [] ∧
      (1 : ℤ) ≤ 11 ∧ (11 : ℤ) ≤ totalFor (aggregate_all 2 ballotsDup) 1) ∧
    (∃ t', subtract_votes_from_winners (aggregate_all 2 ballotsDup) [1] 11 =
        .ok t' ∧
      totalFor t' 1 = totalFor (aggregate_all 2 ballotsDup) 1 - 11 ∧
      (1 ∈ (calculate_winners t' 11).map Prod.fst ↔
        (11 : ℤ) ≤ totalFor (aggregate_all 2 ballotsDup) 1 - 11)) :=
  ⟨⟨by decide, by decide, by decide, by decide⟩,
    C5_winner_redeclaration_amended (aggregate_all 2 ballotsDup) 1 11
      (by decide) (by decide) (by decide) (by decide)⟩

/-- C6: `single_transferable_vote` computes the Droop quota
floor(total / (n_seats + 1)) + 1 (e.g. 100 ballots and 3 seats give 26)
and fails with `insufficientVotes`, before any round runs, exactly when
the number of ballots is below quota * n_seats. -/
theorem C6_quota_and_insufficient :
    (∀ (ballots : List (List ℤ)) (w nseats fuel : ℕ),
      single_transferable_vote ballots w nseats fuel =
        .error .insufficientVotes ↔
      ballots.length < stvQuota ballots.length nseats * nseats) ∧
    stvQuota 100 3 = 26 := by
  refine ⟨?_, rfl⟩
  intro ballots w nseats fuel
  constructor
  · intro h
    by_contra hlt
    simp only [single_transferable_vote, if_neg hlt] at h
    exact stvLoop_ne_insufficient _ _ _ _ _ _ h
  · intro h
    simp only [single_transferable_vote, if_pos h]

/-- Witness for `C6_quota_and_insufficient`: 30 single-choice ballots and
2 seats (quota 11) need 22 votes, so no error is raised; and the iff
instantiates to that concrete run. -/
theorem C6_quota_and_insufficient_witness :
    (single_transferable_vote (List.replicate 30 [1]) 1 2 10 =
        .error .insufficientVotes ↔
      (List.replicate 30 ([1] : List ℤ)).length <
        stvQuota (List.replicate 30 ([1] : List ℤ)).length 2 * 2) ∧
    stvQuota 100 3 = 26 :=
  ⟨C6_quota_and_insufficient.1 (List.replicate 30 [1]) 1 2 10,
    C6_quota_and_insufficient.2⟩

/-- C7: evaluation showing the validation gap.  The string ballots of the
repository's own test `test_invalid_init` (choice "D" with candidates
["A", "B", "C"]) pass `Vote._validate` because the membership check is
computed but never asserted; and an integer choice equal to the candidate
count (3 with 3 candidates, outside [0, 3)) passes the off-by-one range
assert `max(choices) <= len(self.candidates)`.  The repository's test
expects an `AssertionError` for the first input, so the code contradicts
its own tests. -/
theorem C7_validation_gap_eval :
    vote_validate_str [["A", "C"], ["D", "B"], ["C", "B"], ["A"], ["B"],
      ["B"]] ["A", "B", "C"] = true ∧
    vote_validate_int [[3]] ["A", "B", "C"] = true :=
  ⟨by rfl, by rfl⟩

/-- C8: the seat-count guard as written
(`not isinstance(n_seats, int) and n_seats <= 0`) never fires for an
integer seat count, so `single_transferable_vote` with n_seats = 0 raises
nothing and returns an empty winners list instead of the documented
`ValueError` (the docstring and error message require an integer >= 1). -/
theorem C8_seats_guard_eval :
    seatsGuardTriggers true 0 = false ∧
    single_transferable_vote [[0], [1]] 2 0 5 = .ok [] :=
  ⟨by rfl, by rfl⟩

/-- C9: aggregation is order-independent.  For every key width and every
pair of ballot lists that are permutations of each other, both aggregation
manners ("all" and "first") produce identical count tables: `regroup`
keys the rows, merges equal keys by summing counts and sorts the keys,
so the result depends only on the multiset of ballots. -/
theorem C9_aggregation_order_independent (w : ℕ)
    (b1 b2 : List (List ℤ)) (h : b1.Perm b2) :
    aggregate_all w b1 = aggregate_all w b2 ∧
      aggregate_first b1 = aggregate_first b2 :=
  ⟨regroup_perm _ _ (h.map _), regroup_perm _ _ (h.map _)⟩

/-- Witness for `C9_aggregation_order_independent` on a concrete
permutation of three ballots. -/
theorem C9_aggregation_order_independent_witness :
    (([[1], [2], [1, 2]] : List (List ℤ)).Perm [[1, 2], [1], [2]]) ∧
    (aggregate_all 2 [[1], [2], [1, 2]] =
        aggregate_all 2 [[1, 2], [1], [2]] ∧
      aggregate_first [[1], [2], [1, 2]] =
        aggregate_first [[1, 2], [1], [2]]) :=
  ⟨by decide, C9_aggregation_order_independent 2 _ _ (by decide)⟩

/-- C10: `proportional_deduction_retain_int` is insensitive to its
strategy argument: for every input and every admissible strategy name the
result equals the result for the default "difference", since the argument
is only validated against the admissible names and the rounding itself
always uses the same fixed rule. -/
theorem C10_strategy_insensitive (X : List ℤ) (n : ℤ) (s : String)
    (hs : s ∈ strategies) :
    proportional_deduction_retain_int X n s =
      proportional_deduction_retain_int X n "difference" := by
  have hdiff : "difference" ∈ strategies := by simp [strategies]
  unfold proportional_deduction_retain_int
  rw [if_pos hs, if_pos hdiff]

/-- Witness for `C10_strategy_insensitive` at X = [10, 20, 30], n = 6,
strategy "largest". -/
theorem C10_strategy_insensitive_witness :
    ("largest" ∈ strategies) ∧
    proportional_deduction_retain_int [10, 20, 30] 6 "largest" =
      proportional_deduction_retain_int [10, 20, 30] 6 "difference" :=
  ⟨by decide, C10_strategy_insensitive [10, 20, 30] 6 "largest" (by decide)⟩
